import Mathlib

/-!
Verification of deepchem/utils/protein_sequence_feature_utils.py
(MSA-to-profile feature pipeline: alignment encoding, sequence reweighting,
profile estimation with pseudocount regularization, mutual-information
coupling statistics).

Numeric model: machine floats are modelled by exact rationals; matrices of
shape M by N are total functions on Fin M and Fin N, mirroring the
rectangular numpy arrays of the source.  Where the quotient of a float
division matters only when it is finite, an Option-valued variant records a
zero denominator as the sentinel none (numpy returns a non-finite value
there).
-/

/-- Modelled from the spec: the amino-acid alphabet table
(AminoAcid of deepchem.utils.amino_acid_utils, not part of the source tree).
The spec fixes a bijection between the 22 symbols (20 standard amino acids,
unknown X, gap) and indices 0..21; the no-gap profile restricted to indices
0..20 forces the gap symbol onto index 21, and the unknown symbol X lies
among the first 21 indices. -/
def aminoAcidChars : List Char :=
  ['A', 'C', 'D', 'E', 'F', 'G', 'H', 'I', 'K', 'L', 'M', 'N', 'P', 'Q',
   'R', 'S', 'T', 'V', 'W', 'Y', 'X', '-']

/-- Embeds amino_acid_to_numeric: a recognized symbol maps to its table
index, anything else maps to the index of the unknown symbol X (20). -/
def amino_acid_to_numeric (c : Char) : ℕ :=
  if c ∈ aminoAcidChars then aminoAcidChars.indexOf c
  else aminoAcidChars.indexOf 'X'

/-- Embeds sequence_identity: the number of positions where the two numeric
sequences agree on a non-gap symbol (the source computes
((s1 == s2) * (s1 != AminoAcid of gap)).sum() on equal-length arrays;
the zip models the equal-length case). -/
def sequence_identity (s1 s2 : List ℕ) : ℕ :=
  ((s1.zip s2).filter
    (fun p => decide (p.1 = p.2 ∧ p.1 ≠ amino_acid_to_numeric '-'))).length

/-- Embeds the per-row encoding step of read_a3m_as_mat: drop lowercase
(insertion) characters, then map each remaining character to its numeric
index. -/
def encode_row (seq : List Char) : List ℕ :=
  (seq.filter (fun c => !c.isLower)).map amino_acid_to_numeric

/-- Embeds read_a3m_as_mat.  The initial assert (sequence equals the first
alignment row) is modelled by returning none when it fails.  The local
sequence_array of the source is sequence.map amino_acid_to_numeric and
seq_len is its length; a row is kept unless cleaning is on and its identity
score against the query is strictly below one percent of the query
length. -/
def read_a3m_as_mat (sequence : List Char) (a3m_seqs : List (List Char))
    (clean : Bool) : Option (List (List ℕ)) :=
  if a3m_seqs.head? = some sequence then
    some (a3m_seqs.filterMap (fun seq =>
      if clean = true ∧
          ((sequence_identity (sequence.map amino_acid_to_numeric)
              (encode_row seq) : ℚ) <
            (((sequence.map amino_acid_to_numeric).length : ℕ) : ℚ) * (1 / 100)) then
        none
      else
        some (encode_row seq)))
  else none

/-- Embeds sequence_one_hot_encoding.  The validation loop of the source
raises on any character that is neither the gap nor alphabetic; this is
modelled by none.  On valid input the result row i carries a single 1 at
the numeric index of character i (the source writes a 1 into a zero matrix
of width 22 at that index). -/
def sequence_one_hot_encoding (sequence : List Char) :
    Option (Fin sequence.length → Fin 22 → ℚ) :=
  if sequence.all (fun c => c == '-' || c.isAlpha) then
    some (fun i j =>
      if (j : ℕ) = amino_acid_to_numeric (sequence.get i) then 1 else 0)
  else none

/-- Embeds the hamming metric of scipy pdist: the fraction of positions at
which the two rows differ. -/
def hamming_dist (N : ℕ) (r1 r2 : Fin N → ℕ) : ℚ :=
  ((Finset.univ.filter (fun c => r1 c ≠ r2 c)).card : ℚ) / (N : ℚ)

/-- Embeds sequence_weights: the squareform of (pdist < 0.38) is the
boolean matrix that is true exactly at pairs of distinct rows at hamming
distance strictly below 0.38, so row r gets weight one over one plus the
number of other rows that are near-duplicates of it.  The source reshapes
the result to an M by 1 array; the model returns the M-vector. -/
def sequence_weights (M N : ℕ) (seq_mat : Fin M → Fin N → ℕ) (r : Fin M) : ℚ :=
  1 / (1 + ((Finset.univ.filter
    (fun s => s ≠ r ∧ hamming_dist N (seq_mat r) (seq_mat s) < 38 / 100)).card : ℚ))

/-- Embeds the count accumulation of sequence_profile: entry (col, i) of
prof_ct, the weighted number of rows whose symbol at this column equals i
(the source computes ((seq_mat == i) * weights).sum(0)). -/
def profCt (M N : ℕ) (seq_mat : Fin M → Fin N → ℕ) (w : Fin M → ℚ)
    (col : Fin N) (i : ℕ) : ℚ :=
  ∑ r : Fin M, if seq_mat r col = i then w r else 0

/-- Embeds prof_ct.sum(1) of sequence_profile: the total weighted count of
a column over the 22 symbol types. -/
def profile_total (M N : ℕ) (seq_mat : Fin M → Fin N → ℕ) (w : Fin M → ℚ)
    (col : Fin N) : ℚ :=
  ∑ i : Fin 22, profCt M N seq_mat w col (i : ℕ)

/-- Embeds sequence_profile: weighted 22-symbol frequency profile, each
column count vector divided by its total; a missing weights argument
defaults to all ones. -/
def sequence_profile (M N : ℕ) (seq_mat : Fin M → Fin N → ℕ)
    (weights : Option (Fin M → ℚ)) (col : Fin N) (i : Fin 22) : ℚ :=
  profCt M N seq_mat (weights.getD (fun _ => 1)) col (i : ℕ) /
    profile_total M N seq_mat (weights.getD (fun _ => 1)) col

/-- Embeds the float division of sequence_profile with its finiteness made
observable: numpy yields a non-finite value (NaN here, all counts being
zero when the total weight of a column vanishes) exactly when the divisor
prof_ct.sum(1) is zero; that event is recorded as none. -/
def sequence_profile_div (M N : ℕ) (seq_mat : Fin M → Fin N → ℕ)
    (weights : Option (Fin M → ℚ)) (col : Fin N) (i : Fin 22) : Option ℚ :=
  if profile_total M N seq_mat (weights.getD (fun _ => 1)) col = 0 then none
  else some (sequence_profile M N seq_mat weights col i)

/-- Embeds the column totals of sequence_profile_no_gap: unweighted counts
over the 21 non-gap symbol types only. -/
def profile_total_no_gap (M N : ℕ) (seq_mat : Fin M → Fin N → ℕ)
    (col : Fin N) : ℚ :=
  ∑ i : Fin 21, profCt M N seq_mat (fun _ => 1) col (i : ℕ)

/-- Embeds sequence_profile_no_gap: the source accepts a weights argument
but builds prof_ct from plain counts (seq_mat == i).sum(0), never touching
weights. -/
def sequence_profile_no_gap (M N : ℕ) (seq_mat : Fin M → Fin N → ℕ)
    (weights : Option (Fin M → ℚ)) (col : Fin N) (i : Fin 21) : ℚ :=
  profCt M N seq_mat (fun _ => 1) col (i : ℕ) /
    profile_total_no_gap M N seq_mat col

/-- Modelled from the spec: the normalized background distribution P_i of
sequence_profile_with_prior.  The raw background frequencies
(AminoAcidFreq, ordered by alphabet index and truncated to the profile
width R) are external constants not in the source tree and enter as the
parameter P_raw; the source then normalizes them by their sum. -/
def bgP (R : ℕ) (P_raw : Fin R → ℚ) (a : Fin R) : ℚ :=
  P_raw a / ∑ b : Fin R, P_raw b

/-- Modelled from the spec: the coupling matrix q_mat of
sequence_profile_with_prior, q_mat a b = P_i a * P_i b * exp (0.3176 * S a b)
with S the truncated substitution matrix.  The entrywise exponential
exp (0.3176 * S a b), a positive irrational constant, enters as the
parameter expS. -/
def qMat (R : ℕ) (P_raw : Fin R → ℚ) (expS : Fin R → Fin R → ℚ)
    (a b : Fin R) : ℚ :=
  bgP R P_raw a * bgP R P_raw b * expS a b

/-- Embeds the NC statistic of sequence_profile_with_prior: the number of
symbol types with strictly positive frequency in the row. -/
def profNC (R : ℕ) (f : Fin R → ℚ) : ℕ :=
  (Finset.univ.filter (fun a => 0 < f a)).card

/-- Embeds the unnormalized prior estimate of sequence_profile_with_prior:
the row vector (f / P_i) multiplied by q_mat. -/
def gEstimateRaw (R : ℕ) (P_raw : Fin R → ℚ) (expS : Fin R → Fin R → ℚ)
    (f : Fin R → ℚ) (b : Fin R) : ℚ :=
  ∑ a : Fin R, (f a / bgP R P_raw a) * qMat R P_raw expS a b

/-- Embeds g_i of sequence_profile_with_prior: the prior estimate
normalized by its sum. -/
def prior_estimate (R : ℕ) (P_raw : Fin R → ℚ) (expS : Fin R → Fin R → ℚ)
    (f : Fin R → ℚ) (b : Fin R) : ℚ :=
  gEstimateRaw R P_raw expS f b / ∑ c : Fin R, gEstimateRaw R P_raw expS f c

/-- Embeds sequence_profile_with_prior: each row f is replaced by
(f * alpha + g * beta) / (alpha + beta) with alpha = NC - 1 and beta = 10. -/
def sequence_profile_with_prior (L R : ℕ) (P_raw : Fin R → ℚ)
    (expS : Fin R → Fin R → ℚ) (prof_freq : Fin L → Fin R → ℚ)
    (i : Fin L) (b : Fin R) : ℚ :=
  (prof_freq i b * ((profNC R (prof_freq i) : ℚ) - 1) +
      prior_estimate R P_raw expS (prof_freq i) b * 10) /
    (((profNC R (prof_freq i) : ℚ) - 1) + 10)

/-- Embeds profile_combinatorial: entry (i, j, a, b) sums the weights of
rows r with seq_mat r i * 22 + seq_mat r j = a * 22 + b (the combined
encoding of the source) and the whole tensor is divided by the weight
total.  The source reads only the shape n_res off its third argument, so
the model takes n_res directly. -/
def profile_combinatorial (M N : ℕ) (seq_mat : Fin M → Fin N → ℕ)
    (weights : Fin M → ℚ) (n_res : ℕ) (i j : Fin N) (a b : Fin n_res) : ℚ :=
  (∑ r : Fin M,
      if seq_mat r i * 22 + seq_mat r j = (a : ℕ) * 22 + (b : ℕ) then
        weights r
      else 0) /
    ∑ r : Fin M, weights r

/-- Embeds the inner helper no_diag of mutual_information:
2 * mat - triu mat - tril mat, which zeroes the diagonal and keeps
off-diagonal entries (both triangular parts include the diagonal). -/
def no_diag (n : ℕ) (mat : Fin n → Fin n → ℚ) (i j : Fin n) : ℚ :=
  2 * mat i j - (if i ≤ j then mat i j else 0) - (if j ≤ i then mat i j else 0)

/-- Embeds the per-column entropy H_1D of mutual_information; the
transcendental natural logarithm of numpy enters as the abstract parameter
lg, so every theorem below holds for any interpretation of lg. -/
def entropy1D (n_res R : ℕ) (lg : ℚ → ℚ) (prof_1D : Fin n_res → Fin R → ℚ)
    (i : Fin n_res) : ℚ :=
  ∑ a : Fin R, -prof_1D i a * lg (prof_1D i a + 1 / 10 ^ 7) / lg 21

/-- Embeds the pairwise entropy H_2D of mutual_information, summed over
both symbol axes. -/
def entropy2D (n_res R : ℕ) (lg : ℚ → ℚ)
    (prof_2D : Fin n_res → Fin n_res → Fin R → Fin R → ℚ)
    (i j : Fin n_res) : ℚ :=
  ∑ a : Fin R, ∑ b : Fin R,
    -prof_2D i j a b * lg (prof_2D i j a b + 1 / 10 ^ 7) / lg 21

/-- Embeds the MI channel: H_1D i + H_1D j - H_2D i j with the diagonal
removed by no_diag. -/
def miMI (n_res R : ℕ) (lg : ℚ → ℚ) (prof_1D : Fin n_res → Fin R → ℚ)
    (prof_2D : Fin n_res → Fin n_res → Fin R → Fin R → ℚ)
    (i j : Fin n_res) : ℚ :=
  no_diag n_res
    (fun i j => -entropy2D n_res R lg prof_2D i j +
      entropy1D n_res R lg prof_1D i + entropy1D n_res R lg prof_1D j) i j

/-- Embeds MI_1D: row sums of the MI channel divided by n_res - 1. -/
def mi1D (n_res R : ℕ) (lg : ℚ → ℚ) (prof_1D : Fin n_res → Fin R → ℚ)
    (prof_2D : Fin n_res → Fin n_res → Fin R → Fin R → ℚ)
    (i : Fin n_res) : ℚ :=
  (∑ j : Fin n_res, miMI n_res R lg prof_1D prof_2D i j) / ((n_res : ℚ) - 1)

/-- Embeds MI_av: the global MI average over ordered pairs of distinct
columns. -/
def miAv (n_res R : ℕ) (lg : ℚ → ℚ) (prof_1D : Fin n_res → Fin R → ℚ)
    (prof_2D : Fin n_res → Fin n_res → Fin R → Fin R → ℚ) : ℚ :=
  (∑ i : Fin n_res, ∑ j : Fin n_res, miMI n_res R lg prof_1D prof_2D i j) /
    (n_res : ℚ) / ((n_res : ℚ) - 1)

/-- Embeds mutual_information: the four stacked channels MI, MIr, MIp, MIa
of the coupling tensor, in the order of the source's np.stack. -/
def mutual_information (n_res R : ℕ) (lg : ℚ → ℚ)
    (prof_1D : Fin n_res → Fin R → ℚ)
    (prof_2D : Fin n_res → Fin n_res → Fin R → Fin R → ℚ)
    (i j : Fin n_res) : Fin 4 → ℚ :=
  ![miMI n_res R lg prof_1D prof_2D i j,
    miMI n_res R lg prof_1D prof_2D i j /
      (entropy2D n_res R lg prof_2D i j + 1 / 10 ^ 5),
    no_diag n_res (fun i j => miMI n_res R lg prof_1D prof_2D i j -
      mi1D n_res R lg prof_1D prof_2D i * mi1D n_res R lg prof_1D prof_2D j /
        miAv n_res R lg prof_1D prof_2D) i j,
    no_diag n_res (fun i j => miMI n_res R lg prof_1D prof_2D i j -
      (mi1D n_res R lg prof_1D prof_2D i + mi1D n_res R lg prof_1D prof_2D j -
        miAv n_res R lg prof_1D prof_2D)) i j]

/-- Helper: the no_diag transform vanishes on the diagonal, since both
triangular projections contain the diagonal. -/
theorem no_diag_diag (n : ℕ) (mat : Fin n → Fin n → ℚ) (i : Fin n) :
    no_diag n mat i i = 0 := by
  simp only [no_diag, le_refl, if_pos]
  ring

/-- C3: the coupling tensor returned by mutual_information vanishes on
the diagonal of its MI channel (channel 0) and on the diagonals of its
MIp (channel 2) and MIa (channel 3) channels, for every single-residue
profile, pairwise profile and interpretation of the logarithm. -/
theorem mutual_information_diag_zero (n_res R : ℕ) (lg : ℚ → ℚ)
    (prof_1D : Fin n_res → Fin R → ℚ)
    (prof_2D : Fin n_res → Fin n_res → Fin R → Fin R → ℚ) (i : Fin n_res) :
    mutual_information n_res R lg prof_1D prof_2D i i 0 = 0 ∧
    mutual_information n_res R lg prof_1D prof_2D i i 2 = 0 ∧
    mutual_information n_res R lg prof_1D prof_2D i i 3 = 0 := by
  refine ⟨?_, ?_, ?_⟩ <;>
    simp only [mutual_information, Matrix.cons_val_zero, Matrix.cons_val_two,
      Matrix.cons_val_three, Matrix.tail_cons, Matrix.head_cons, miMI,
      no_diag_diag]

/-- C10: sequence_profile_no_gap ignores its weights argument entirely;
the output is the same for any two weight vectors, including the missing
one. -/
theorem no_gap_weights_irrelevant (M N : ℕ) (seq_mat : Fin M → Fin N → ℕ)
    (w1 w2 : Option (Fin M → ℚ)) :
    sequence_profile_no_gap M N seq_mat w1 = sequence_profile_no_gap M N seq_mat w2 := rfl

/-- C7: sequence_one_hot_encoding fails (models the ValueError) exactly
when the input contains a character that is neither the gap nor
alphabetic; on every other input it returns a matrix. -/
theorem one_hot_error_iff (sequence : List Char) :
    sequence_one_hot_encoding sequence = none ↔
      ∃ c ∈ sequence, ¬c = '-' ∧ c.isAlpha = false := by
  unfold sequence_one_hot_encoding
  by_cases hall : (sequence.all fun c => c == '-' || c.isAlpha) = true
  · rw [if_pos hall]
    rw [List.all_eq_true] at hall
    simp only [reduceCtorEq, false_iff, not_exists]
    intro c h
    obtain ⟨hc, hne, hal⟩ := h
    have hor := hall c hc
    simp only [Bool.or_eq_true, beq_iff_eq] at hor
    rcases hor with h | h
    · exact hne h
    · rw [hal] at h
      exact Bool.false_ne_true h
  · rw [if_neg hall]
    simp only [true_iff]
    rw [List.all_eq_true] at hall
    push_neg at hall
    obtain ⟨c, hc, hbad⟩ := hall
    refine ⟨c, hc, ?_, ?_⟩
    · intro h
      exact hbad (by simp [h])
    · cases h : c.isAlpha
      · rfl
      · exact absurd (by simp [h]) hbad

/-- Helper: a pair of residue types below 22 is uniquely recoverable from
the combined base-22 encoding used by profile_combinatorial. -/
theorem combined_code_inj (x y a b : ℕ) (hy : y < 22) (hb : b < 22) :
    x * 22 + y = a * 22 + b ↔ x = a ∧ y = b := by omega

/-- C2: each entry of the profile_combinatorial tensor is the weighted
count of rows carrying residue type a at column i and type b at column j,
divided by the total weight, for any symbol count n_res of 21 or 22 and
any sequence matrix with entries below 22. -/
theorem profile_combinatorial_correct (M N : ℕ) (seq_mat : Fin M → Fin N → ℕ)
    (weights : Fin M → ℚ) (n_res : ℕ) (hR : n_res = 21 ∨ n_res = 22)
    (hseq : ∀ r c, seq_mat r c < 22) (i j : Fin N) (a b : Fin n_res) :
    profile_combinatorial M N seq_mat weights n_res i j a b =
      (∑ r : Fin M,
          if seq_mat r i = (a : ℕ) ∧ seq_mat r j = (b : ℕ) then weights r
          else 0) /
        ∑ r : Fin M, weights r := by
  unfold profile_combinatorial
  congr 1
  refine Finset.sum_congr rfl fun r _ => ?_
  have hb : (b : ℕ) < 22 := by
    have := b.isLt
    rcases hR with h | h <;> omega
  exact if_congr (combined_code_inj _ _ _ _ (hseq r j) hb) rfl rfl

/-- Witness for C2 at a concrete one-row, one-column matrix with symbol
count 21. -/
theorem profile_combinatorial_correct_inst :
    profile_combinatorial 1 1 (fun _ _ => 0) (fun _ => 1) 21 0 0 0 0 =
      (∑ r : Fin 1, if (0 : ℕ) = ((0 : Fin 21) : ℕ) ∧ (0 : ℕ) = ((0 : Fin 21) : ℕ) then (1 : ℚ)
          else 0) /
        ∑ _r : Fin 1, (1 : ℚ) :=
  profile_combinatorial_correct 1 1 (fun _ _ => 0) (fun _ => 1) 21
    (Or.inl rfl) (by intro r c; norm_num) 0 0 0 0

/-- C4: each entry of sequence_weights is one over one plus the number of
other rows whose hamming distance (fraction of differing positions) to
this row is strictly below 0.38. -/
theorem sequence_weights_formula (M N : ℕ) (seq_mat : Fin M → Fin N → ℕ)
    (hM : 2 ≤ M) (hN : 1 ≤ N) (r : Fin M) :
    sequence_weights M N seq_mat r =
      1 / (1 + ((Finset.univ.filter (fun s : Fin M => s ≠ r ∧
          ((Finset.univ.filter
              (fun c : Fin N => seq_mat r c ≠ seq_mat s c)).card : ℚ) / (N : ℚ)
            < 38 / 100)).card : ℚ)) := rfl

/-- Witness for C4 at a concrete two-row, one-column matrix. -/
theorem sequence_weights_formula_inst :
    sequence_weights 2 1 (fun _ _ => 0) 0 =
      1 / (1 + ((Finset.univ.filter (fun s : Fin 2 => s ≠ 0 ∧
          ((Finset.univ.filter
              (fun _c : Fin 1 => (0 : ℕ) ≠ (0 : ℕ))).card : ℚ) / ((1 : ℕ) : ℚ)
            < 38 / 100)).card : ℚ)) :=
  sequence_weights_formula 2 1 (fun _ _ => 0) (by decide) (by decide) 0

/-- C9: with a nonzero column total the normalization of sequence_profile
is an honest division producing a finite value, and with a zero column
total every entry of that profile row is the non-finite sentinel none,
never a silent zero. -/
theorem sequence_profile_div_by_zero (M N : ℕ) (seq_mat : Fin M → Fin N → ℕ)
    (weights : Fin M → ℚ) :
    (∀ col : Fin N, 0 < profile_total M N seq_mat weights col →
      ∀ i : Fin 22, sequence_profile_div M N seq_mat (some weights) col i =
        some (sequence_profile M N seq_mat (some weights) col i)) ∧
    (∀ col : Fin N, profile_total M N seq_mat weights col = 0 →
      ∀ i : Fin 22, sequence_profile_div M N seq_mat (some weights) col i = none) := by
  constructor
  · intro col h i
    unfold sequence_profile_div
    rw [if_neg]
    exact ne_of_gt h
  · intro col h i
    unfold sequence_profile_div
    rw [if_pos]
    exact h

/-- Witness for C9: a one-entry matrix with unit weight divides cleanly,
and the same matrix with zero weight surfaces the sentinel. -/
theorem sequence_profile_div_by_zero_inst :
    sequence_profile_div 1 1 (fun _ _ => 0) (some fun _ => 1) 0 0 =
      some (sequence_profile 1 1 (fun _ _ => 0) (some fun _ => 1) 0 0) ∧
    sequence_profile_div 1 1 (fun _ _ => 0) (some fun _ => 0) 0 0 = none :=
  ⟨(sequence_profile_div_by_zero 1 1 (fun _ _ => 0) (fun _ => 1)).1 0
      (by simp only [profile_total, profCt, Fin.sum_univ_succ, Fin.sum_univ_zero]
          norm_num) 0,
   (sequence_profile_div_by_zero 1 1 (fun _ _ => 0) (fun _ => 0)).2 0
      (by simp only [profile_total, profCt, Fin.sum_univ_succ, Fin.sum_univ_zero]
          norm_num) 0⟩

/-- Helper: the alphabet mapper always lands in the index range 0..21. -/
theorem amino_acid_to_numeric_lt (c : Char) : amino_acid_to_numeric c < 22 := by
  unfold amino_acid_to_numeric
  split
  · next h => exact List.indexOf_lt_length.2 h
  · decide

/-- C8: on an accepted sequence the encoding matrix has, in every row,
exactly one nonzero entry; that entry is 1 and sits at the index the
alphabet mapper assigns to the character of that row. -/
theorem one_hot_row_indicator (sequence : List Char)
    (mat : Fin sequence.length → Fin 22 → ℚ)
    (h : sequence_one_hot_encoding sequence = some mat) (i : Fin sequence.length) :
    (Finset.univ.filter (fun j : Fin 22 => mat i j ≠ 0)).card = 1 ∧
    ∀ j : Fin 22, mat i j ≠ 0 →
      (j : ℕ) = amino_acid_to_numeric (sequence.get i) ∧ mat i j = 1 := by
  unfold sequence_one_hot_encoding at h
  by_cases hall : (sequence.all fun c => c == '-' || c.isAlpha) = true
  · rw [if_pos hall] at h
    have hm : ∀ (i' : Fin sequence.length) (j : Fin 22),
        mat i' j =
          if (j : ℕ) = amino_acid_to_numeric (sequence.get i') then 1 else 0 := by
      intro i' j
      have hinj := Option.some.inj h
      rw [← hinj]
    constructor
    · have hlt := amino_acid_to_numeric_lt (sequence.get i)
      rw [Finset.card_eq_one]
      refine ⟨⟨amino_acid_to_numeric (sequence.get i), hlt⟩, ?_⟩
      ext j
      simp only [Finset.mem_filter, Finset.mem_univ, true_and,
        Finset.mem_singleton, hm, Fin.ext_iff]
      constructor
      · intro hne
        by_contra hj
        rw [if_neg hj] at hne
        exact hne rfl
      · intro hj
        rw [if_pos hj]
        norm_num
    · intro j hne
      rw [hm i j] at hne
      by_cases hj : (j : ℕ) = amino_acid_to_numeric (sequence.get i)
      · exact ⟨hj, by rw [hm i j, if_pos hj]⟩
      · rw [if_neg hj] at hne
        exact absurd rfl hne
  · rw [if_neg hall] at h
    exact absurd h (by simp)

/-- Witness for C8 at the single-character sequence A. -/
theorem one_hot_row_indicator_inst :
    ∃ mat : Fin (List.length ['A']) → Fin 22 → ℚ,
      sequence_one_hot_encoding ['A'] = some mat ∧
      ((Finset.univ.filter (fun j : Fin 22 => mat ⟨0, by decide⟩ j ≠ 0)).card = 1 ∧
       ∀ j : Fin 22, mat ⟨0, by decide⟩ j ≠ 0 →
         (j : ℕ) = amino_acid_to_numeric (List.get ['A'] ⟨0, by decide⟩) ∧
           mat ⟨0, by decide⟩ j = 1) := by
  have h : sequence_one_hot_encoding ['A'] =
      some (fun (i : Fin (List.length ['A'])) (j : Fin 22) =>
        if (j : ℕ) = amino_acid_to_numeric (List.get ['A'] i) then (1 : ℚ)
        else 0) := by
    unfold sequence_one_hot_encoding
    rw [if_pos (by decide)]
  exact ⟨_, h, one_hot_row_indicator ['A'] _ h ⟨0, by decide⟩⟩

/-- Helper: the row filter of read_a3m_as_mat written as a List.filter over
the encoded rows, for any decidable criterion on the encoded row. -/
theorem filterMap_if (P : List ℕ → Prop) [DecidablePred P]
    (l : List (List Char)) :
    (l.filterMap (fun seq =>
      if P (encode_row seq) then none else some (encode_row seq)))
      = (l.map encode_row).filter (fun arr => !decide (P arr)) := by
  induction l with
  | nil => rfl
  | cons x xs ih =>
    simp only [List.filterMap_cons, List.map_cons, List.filter_cons]
    by_cases hx : P (encode_row x)
    · rw [if_pos hx]
      simp [hx, ih]
    · rw [if_neg hx]
      simp [hx, ih]

/-- C5 counterexample: with filtering enabled, an all-gap query is NOT
retained: its identity score against itself is 0, below one percent of its
length, so read_a3m_as_mat discards row 0 and returns the empty matrix. -/
theorem read_a3m_as_mat_drops_all_gap_query :
    read_a3m_as_mat ['-'] [['-']] true = some [] := by
  unfold read_a3m_as_mat
  rw [List.head?_cons, if_pos (rfl : some ['-'] = some ['-'])]
  congr 1
  rw [List.filterMap_cons]
  have hcond : true = true ∧
      ((sequence_identity (List.map amino_acid_to_numeric ['-'])
          (encode_row ['-']) : ℚ) <
        (((List.map amino_acid_to_numeric ['-']).length : ℕ) : ℚ) * (1 / 100)) := by
    refine ⟨rfl, ?_⟩
    have h1 : sequence_identity (List.map amino_acid_to_numeric ['-'])
        (encode_row ['-']) = 0 := by decide
    have h2 : (List.map amino_acid_to_numeric ['-']).length = 1 := by decide
    rw [h1, h2]
    norm_num
  rw [if_pos hcond]
  rfl

/-- C5 (amended): provided the query is lowercase-free and its identity
score against itself (its count of non-gap positions) is not below one
percent of the query length, read_a3m_as_mat with filtering retains row 0
at the head of the output, and the output consists exactly of the encoded
rows whose identity score against the query is not strictly below one
percent of the query length (so every discarded row scores strictly
below that threshold). -/
theorem read_a3m_as_mat_retention (sequence : List Char)
    (a3m_seqs : List (List Char))
    (hhead : a3m_seqs.head? = some sequence)
    (hlower : ∀ c ∈ sequence, c.isLower = false)
    (hident : ¬ ((sequence_identity (sequence.map amino_acid_to_numeric)
        (sequence.map amino_acid_to_numeric) : ℚ) <
          (sequence.length : ℚ) * (1 / 100))) :
    ∃ mat, read_a3m_as_mat sequence a3m_seqs true = some mat ∧
      mat.head? = some (sequence.map amino_acid_to_numeric) ∧
      mat = (a3m_seqs.map encode_row).filter
        (fun arr => !decide ((sequence_identity
            (sequence.map amino_acid_to_numeric) arr : ℚ) <
          (sequence.length : ℚ) * (1 / 100))) := by
  cases a3m_seqs with
  | nil => simp at hhead
  | cons q rest =>
    have hq : q = sequence := by simpa using hhead
    subst hq
    have henc : encode_row q = q.map amino_acid_to_numeric := by
      unfold encode_row
      congr 1
      refine List.filter_eq_self.mpr fun a ha => ?_
      rw [hlower a ha]
      rfl
    refine ⟨((q :: rest).map encode_row).filter
        (fun arr => !decide ((sequence_identity
            (q.map amino_acid_to_numeric) arr : ℚ) <
          (q.length : ℚ) * (1 / 100))), ?_, ?_, rfl⟩
    · unfold read_a3m_as_mat
      rw [List.head?_cons, if_pos (rfl : some q = some q)]
      simp only [eq_self_iff_true, true_and, List.length_map]
      exact congrArg some (filterMap_if
        (fun arr => (sequence_identity (q.map amino_acid_to_numeric) arr : ℚ) <
          (q.length : ℚ) * (1 / 100)) (q :: rest))
    · rw [List.map_cons, List.filter_cons]
      have hpq : (!decide ((sequence_identity
          (q.map amino_acid_to_numeric) (encode_row q) : ℚ) <
            (q.length : ℚ) * (1 / 100))) = true := by
        rw [henc]
        simp only [Bool.not_eq_true', decide_eq_false_iff_not]
        exact hident
      rw [if_pos hpq, henc]
      rfl

/-- Witness for the amended C5 at the single-character query A. -/
theorem read_a3m_as_mat_retention_inst :
    ∃ mat, read_a3m_as_mat ['A'] [['A']] true = some mat ∧
      mat.head? = some (['A'].map amino_acid_to_numeric) ∧
      mat = ([['A']].map encode_row).filter
        (fun arr => !decide ((sequence_identity
            (['A'].map amino_acid_to_numeric) arr : ℚ) <
          ((List.length ['A'] : ℕ) : ℚ) * (1 / 100))) :=
  read_a3m_as_mat_retention ['A'] [['A']] rfl (by decide)
    (by
      have h1 : sequence_identity (List.map amino_acid_to_numeric ['A'])
          (List.map amino_acid_to_numeric ['A']) = 1 := by decide
      rw [h1]
      norm_num)

/-- Helper: weighted symbol counts are nonnegative for nonnegative
weights. -/
theorem profCt_nonneg (M N : ℕ) (seq_mat : Fin M → Fin N → ℕ)
    (w : Fin M → ℚ) (hw : ∀ r, 0 ≤ w r) (col : Fin N) (i : ℕ) :
    0 ≤ profCt M N seq_mat w col i :=
  Finset.sum_nonneg fun r _ => by
    by_cases h : seq_mat r col = i
    · simpa [h] using hw r
    · simp [h]

/-- Helper: a row of sequence_profile sums to 1 whenever the column total
is nonzero. -/
theorem sequence_profile_row_sum (M N : ℕ) (seq_mat : Fin M → Fin N → ℕ)
    (weights : Option (Fin M → ℚ)) (col : Fin N)
    (h : profile_total M N seq_mat (weights.getD fun _ => 1) col ≠ 0) :
    ∑ i : Fin 22, sequence_profile M N seq_mat weights col i = 1 := by
  unfold sequence_profile
  rw [← Finset.sum_div]
  exact div_self h

/-- Helper: a row of sequence_profile_no_gap sums to 1 whenever its no-gap
column total is nonzero. -/
theorem no_gap_row_sum (M N : ℕ) (seq_mat : Fin M → Fin N → ℕ)
    (weights : Option (Fin M → ℚ)) (col : Fin N)
    (h : profile_total_no_gap M N seq_mat col ≠ 0) :
    ∑ i : Fin 21, sequence_profile_no_gap M N seq_mat weights col i = 1 := by
  unfold sequence_profile_no_gap
  rw [← Finset.sum_div]
  exact div_self h

/-- Helper: the pseudocount blend of sequence_profile_with_prior maps a
nonnegative frequency row summing to 1 to a row summing to 1, for positive
background frequencies and a positive exponentiated substitution matrix. -/
theorem with_prior_row_sum (R : ℕ) (P_raw : Fin R → ℚ)
    (expS : Fin R → Fin R → ℚ) (f : Fin R → ℚ)
    (hP : ∀ a, 0 < P_raw a) (hE : ∀ a b, 0 < expS a b)
    (hf0 : ∀ b, 0 ≤ f b) (hf1 : ∑ b : Fin R, f b = 1) :
    ∑ b : Fin R,
      (f b * ((profNC R f : ℚ) - 1) + prior_estimate R P_raw expS f b * 10) /
        (((profNC R f : ℚ) - 1) + 10) = 1 := by
  obtain ⟨a0, ha0⟩ : ∃ a, 0 < f a := by
    by_contra hno
    push_neg at hno
    have hle : ∑ b : Fin R, f b ≤ 0 := Finset.sum_nonpos fun b _ => hno b
    rw [hf1] at hle
    norm_num at hle
  have hPsum : 0 < ∑ b : Fin R, P_raw b :=
    Finset.sum_pos (fun b _ => hP b) ⟨a0, Finset.mem_univ a0⟩
  have hbg : ∀ a, 0 < bgP R P_raw a := fun a => div_pos (hP a) hPsum
  have hq : ∀ a b, 0 < qMat R P_raw expS a b := fun a b =>
    mul_pos (mul_pos (hbg a) (hbg b)) (hE a b)
  have hg0 : ∀ b, 0 < gEstimateRaw R P_raw expS f b := by
    intro b
    refine Finset.sum_pos' (fun a _ => ?_) ⟨a0, Finset.mem_univ a0, ?_⟩
    · exact mul_nonneg (div_nonneg (hf0 a) (hbg a).le) (hq a b).le
    · exact mul_pos (div_pos ha0 (hbg a0)) (hq a0 b)
  have hgsum : 0 < ∑ c : Fin R, gEstimateRaw R P_raw expS f c :=
    Finset.sum_pos (fun c _ => hg0 c) ⟨a0, Finset.mem_univ a0⟩
  have hgrow : ∑ b : Fin R, prior_estimate R P_raw expS f b = 1 := by
    unfold prior_estimate
    rw [← Finset.sum_div]
    exact div_self (ne_of_gt hgsum)
  have hNC : (1 : ℚ) ≤ (profNC R f : ℚ) := by
    have h1 : 1 ≤ profNC R f :=
      Finset.card_pos.mpr
        ⟨a0, Finset.mem_filter.mpr ⟨Finset.mem_univ a0, ha0⟩⟩
    exact_mod_cast h1
  have hden : (((profNC R f : ℚ) - 1) + 10) ≠ 0 := by
    have : (0 : ℚ) < ((profNC R f : ℚ) - 1) + 10 := by linarith
    exact ne_of_gt this
  have hnum : ∑ b : Fin R,
      (f b * ((profNC R f : ℚ) - 1) + prior_estimate R P_raw expS f b * 10) =
      ((profNC R f : ℚ) - 1) + 10 := by
    rw [Finset.sum_add_distrib, ← Finset.sum_mul, ← Finset.sum_mul, hf1, hgrow]
    ring
  rw [← Finset.sum_div, hnum]
  exact div_self hden

/-- C1: for nonnegative weights, positive 22-symbol column totals, positive
no-gap column totals, positive background frequencies and a positive
exponentiated substitution matrix, every row of the weighted profile, of
the no-gap profile and of the regularized profile sums exactly to 1 (hence
to 1 within 1e-9). -/
theorem profile_rows_sum_one (M N : ℕ) (seq_mat : Fin M → Fin N → ℕ)
    (weights : Fin M → ℚ) (P_raw : Fin 22 → ℚ) (expS : Fin 22 → Fin 22 → ℚ)
    (hw : ∀ r, 0 ≤ weights r)
    (h22 : ∀ col, 0 < profile_total M N seq_mat weights col)
    (h21 : ∀ col, 0 < profile_total_no_gap M N seq_mat col)
    (hP : ∀ a, 0 < P_raw a) (hE : ∀ a b, 0 < expS a b) :
    (∀ col, ∑ i : Fin 22, sequence_profile M N seq_mat (some weights) col i = 1) ∧
    (∀ col, ∑ i : Fin 21,
        sequence_profile_no_gap M N seq_mat (some weights) col i = 1) ∧
    (∀ col, ∑ i : Fin 22, sequence_profile_with_prior N 22 P_raw expS
        (sequence_profile M N seq_mat (some weights)) col i = 1) := by
  have h1 : ∀ col, ∑ i : Fin 22,
      sequence_profile M N seq_mat (some weights) col i = 1 := fun col =>
    sequence_profile_row_sum M N seq_mat (some weights) col (ne_of_gt (h22 col))
  refine ⟨h1, fun col =>
    no_gap_row_sum M N seq_mat (some weights) col (ne_of_gt (h21 col)),
    fun col => ?_⟩
  have hf0 : ∀ b, 0 ≤ sequence_profile M N seq_mat (some weights) col b := by
    intro b
    unfold sequence_profile
    exact div_nonneg (profCt_nonneg M N seq_mat weights hw col b)
      (le_of_lt (h22 col))
  exact with_prior_row_sum 22 P_raw expS
    (sequence_profile M N seq_mat (some weights) col) hP hE hf0 (h1 col)

/-- Witness for C1 at a one-entry matrix with unit weight, unit background
frequencies and a unit exponentiated substitution matrix. -/
theorem profile_rows_sum_one_inst :
    (∀ col : Fin 1, ∑ i : Fin 22,
        sequence_profile 1 1 (fun _ _ => 0) (some fun _ => 1) col i = 1) ∧
    (∀ col : Fin 1, ∑ i : Fin 21,
        sequence_profile_no_gap 1 1 (fun _ _ => 0) (some fun _ => 1) col i = 1) ∧
    (∀ col : Fin 1, ∑ i : Fin 22,
        sequence_profile_with_prior 1 22 (fun _ => 1) (fun _ _ => 1)
          (sequence_profile 1 1 (fun _ _ => 0) (some fun _ => 1)) col i = 1) :=
  profile_rows_sum_one 1 1 (fun _ _ => 0) (fun _ => 1) (fun _ => 1)
    (fun _ _ => 1)
    (fun _ => by norm_num)
    (by
      intro col
      simp only [profile_total, profCt, Fin.sum_univ_succ, Fin.sum_univ_zero]
      norm_num)
    (by
      intro col
      simp only [profile_total_no_gap, profCt, Fin.sum_univ_succ,
        Fin.sum_univ_zero]
      norm_num)
    (fun _ => by norm_num)
    (fun _ _ => by norm_num)

/-- C6: on a nonnegative profile row with exactly one nonzero entry (a
fully conserved column), the NC statistic is 1, so alpha = NC - 1 is 0 and
the regularized row equals the normalized prior-informed estimate g
exactly, beta = 10 cancelling out. -/
theorem with_prior_conserved_eq_prior (L R : ℕ) (P_raw : Fin R → ℚ)
    (expS : Fin R → Fin R → ℚ) (prof_freq : Fin L → Fin R → ℚ) (i : Fin L)
    (hnn : ∀ b, 0 ≤ prof_freq i b)
    (hone : (Finset.univ.filter fun b => prof_freq i b ≠ 0).card = 1) :
    ((profNC R (prof_freq i) : ℚ) - 1 = 0) ∧
    ∀ b, sequence_profile_with_prior L R P_raw expS prof_freq i b =
      prior_estimate R P_raw expS (prof_freq i) b := by
  have hNC : profNC R (prof_freq i) = 1 := by
    unfold profNC
    rw [← hone]
    congr 1
    apply Finset.filter_congr
    intro b _
    constructor
    · exact fun h => ne_of_gt h
    · intro h
      exact lt_of_le_of_ne (hnn b) (Ne.symm h)
  have hz : ((profNC R (prof_freq i) : ℚ) - 1) = 0 := by
    rw [hNC]
    norm_num
  refine ⟨hz, fun b => ?_⟩
  unfold sequence_profile_with_prior
  rw [hz]
  ring

/-- Witness for C6 at the one-symbol fully conserved row. -/
theorem with_prior_conserved_eq_prior_inst :
    ((profNC 1 (fun _ => (1 : ℚ)) : ℚ) - 1 = 0) ∧
    ∀ b : Fin 1, sequence_profile_with_prior 1 1 (fun _ => 1) (fun _ _ => 1)
        (fun _ _ => 1) 0 b =
      prior_estimate 1 (fun _ => 1) (fun _ _ => 1) (fun _ => 1) b :=
  with_prior_conserved_eq_prior 1 1 (fun _ => 1) (fun _ _ => 1) (fun _ _ => 1)
    0 (fun _ => by norm_num)
    (by
      rw [Finset.filter_true_of_mem (fun b _ => by norm_num)]
      rfl)
